import Mathlib

/-!
Verification development for the terminal application's core:
the PTY session manager (src/src/main/pty-manager.ts), the command
history merge/sync engine (src/unnamed/part_001, class
CommandHistoryStore), the generic JSON persistence layer
(src/src/main/persistence/store.ts) and the sticky command store
(src/src/main/persistence/sticky-commands.ts).

The TypeScript is embedded shallowly: each store becomes a Lean state
type with pure state-passing operations; the file system is part of the
state (file contents are `Option String` or decoded payloads, `none`
meaning the file is absent or unreadable); JavaScript string primitives
(`split`, `startsWith`, `endsWith`, regular expressions) are embedded as
executable functions over `List Char`.
-/

namespace Origin

/-! ## JavaScript string primitives, embedded over `List Char` -/

/-- Embedding of JavaScript `s.split('\n')`: splits on every newline,
keeping empty segments (so `""` yields `[""]` and a trailing newline
yields a trailing empty segment), exactly as `String.prototype.split`. -/
def splitNl : List Char → List (List Char)
  | [] => [[]]
  | '\n' :: rest => [] :: splitNl rest
  | c :: rest =>
    match splitNl rest with
    | [] => [[c]]
    | l :: ls => (c :: l) :: ls

/-- Embedding of JavaScript `lines.join('\n')`. -/
def joinNl : List (List Char) → List Char
  | [] => []
  | [l] => l
  | l :: ls => l ++ '\n' :: joinNl ls

/-- Embedding of JavaScript `s.startsWith(p)` (prefix test on code
points). -/
def jsStartsWith (s p : List Char) : Bool :=
  p.isPrefixOf s

/-- Embedding of JavaScript `s.endsWith(p)` (suffix test on code
points). -/
def jsEndsWith (s p : List Char) : Bool :=
  p.isSuffixOf s

/-! ## Command history store (src/unnamed/part_001) -/

/-- Maximum history size, `const MAX_HISTORY = 5000` in
src/unnamed/part_001. -/
def MAX_HISTORY : Nat := 5000

/-- Embedding of the regular expression `/^: \d+:\d+;(.+)$/` from
`readShellHistory` applied to one line: on success returns the capture
group (the command text after the `;`).  `\d+` is a maximal nonempty
digit run (shrinking a digit run can never expose the required `:` or
`;`, both non-digits, so greedy matching without backtracking is exact),
and `(.+)$` is the nonempty remainder of the line. -/
def extMatch : List Char → Option (List Char)
  | ':' :: ' ' :: rest =>
    let d1 := rest.takeWhile Char.isDigit
    let r1 := rest.dropWhile Char.isDigit
    if d1.isEmpty then none
    else
      match r1 with
      | ':' :: r2 =>
        let d2 := r2.takeWhile Char.isDigit
        let r3 := r2.dropWhile Char.isDigit
        if d2.isEmpty then none
        else
          match r3 with
          | ';' :: cmd => if cmd.isEmpty then none else some cmd
          | _ => none
      | _ => none
  | _ => none

/-- Loop body of `readShellHistory` for a single line of the shell
history file: empty lines are skipped, a line matching the
extended-history regular expression contributes its capture, and a
plain line (one not starting with `": "`) contributes itself. -/
def lineCommands (line : String) : List String :=
  if line = "" then []
  else
    match extMatch line.data with
    | some cmd => [String.mk cmd]
    | none => if jsStartsWith line.data ": ".data then [] else [line]

/-- Body of `readShellHistory` applied to the raw contents of the shell
history file: split into lines and collect the parsed commands in
order. -/
def parseShellHistory (raw : String) : List String :=
  (splitNl raw.data).flatMap (fun l => lineCommands (String.mk l))

/-- Embedding of `getShellHistoryPath`: the history file is
`~/.zsh_history` when `$SHELL` ends in `/zsh`, `~/.bash_history` when it
ends in `/bash`, and unrecognized shells disable shell-history
integration entirely (`null`). -/
def getShellHistoryPath (shell : String) : Option String :=
  if jsEndsWith shell.data "/zsh".data then some ".zsh_history"
  else if jsEndsWith shell.data "/bash".data then some ".bash_history"
  else none

/-- State of the command history store together with the parts of its
environment it reads and writes: the `$SHELL` environment variable
(`''` when absent, matching `process.env.SHELL ?? ''`), the raw shell
history file (`none` when absent or unreadable), the decoded contents of
`command-history.json` (`none` when absent or corrupt, in which case the
`JsonStore` yields its default `[]`), the in-memory cache, and the
current Unix time in seconds (the value of
`Math.floor(Date.now() / 1000)`). -/
structure HistState where
  shell : String
  shellFile : Option String
  appFile : Option (List String)
  cache : Option (List String)
  now : Nat

/-- Embedding of `readShellHistory`: returns `[]` when the shell is
unrecognized or the file cannot be read, otherwise parses the file
contents. -/
def readShellHistory (s : HistState) : List String :=
  match getShellHistoryPath s.shell with
  | none => []
  | some _ =>
    match s.shellFile with
    | none => []
    | some raw => parseShellHistory raw

/-- Embedding of JavaScript `Map.prototype.set`: updates the value in
place when the key is already present (keeping its insertion position),
otherwise appends the new entry. -/
def mapSet (m : List (String × Nat)) (k : String) (v : Nat) : List (String × Nat) :=
  if m.any (fun q => q.1 == k) then
    m.map (fun q => if q.1 = k then (k, v) else q)
  else m ++ [(k, v)]

/-- The `seen` map built by `load`: each command of the concatenated
list is mapped to its last position. -/
def buildSeen (all : List String) : List (String × Nat) :=
  all.enum.foldl (fun m p => mapSet m p.2 p.1) []

/-- Trim step shared by `load` and `append`:
`if (l.length > MAX_HISTORY) l.splice(0, l.length - MAX_HISTORY)`,
dropping the oldest entries from the front. -/
def trimFront (l : List String) : List String :=
  if l.length > MAX_HISTORY then l.drop (l.length - MAX_HISTORY) else l

/-- Merge step of `load`: concatenate shell history then app history,
deduplicate by keeping each command's last position (the JavaScript
`Map` keyed by command, updated left to right), sort the surviving
entries by that position ascending (the comparator
`(a, b) => a[1] - b[1]`; positions are pairwise distinct so any correct
sort produces this order), and trim to the maximum size from the
front. -/
def mergeHistories (shellHistory appHistory : List String) : List String :=
  let all := shellHistory ++ appHistory
  let seen := buildSeen all
  let merged :=
    (List.insertionSort (fun p q : String × Nat => p.2 ≤ q.2) seen).map Prod.fst
  trimFront merged

/-- Embedding of `load`: on a cache miss, read and merge the two history
sources and fill the cache; on a hit, return the cached list (the
defensive copy `[...this.cache]` is identity under immutability). -/
def load (s : HistState) : List String × HistState :=
  match s.cache with
  | some c => (c, s)
  | none =>
    let merged := mergeHistories (readShellHistory s) (s.appFile.getD [])
    (merged, { s with cache := some merged })

/-- In-memory list update performed by `append`: remove the first
occurrence of the command if present (`indexOf` / `splice(idx, 1)`),
push it to the end, and trim to the maximum size. -/
def appendCmd (history : List String) (command : String) : List String :=
  trimFront (history.erase command ++ [command])

/-- Embedding of `appendToShellHistory`: best-effort append of the
command to the shell history file in the shell's own format (extended
format with a Unix timestamp for zsh, plain for bash); a missing file is
created by `appendFile`, and unrecognized shells are skipped. -/
def appendToShellHistory (s : HistState) (command : String) : Option String :=
  match getShellHistoryPath s.shell with
  | none => s.shellFile
  | some _ =>
    let line :=
      if jsEndsWith s.shell.data "/zsh".data then
        ": " ++ Nat.repr s.now ++ ":0;" ++ command ++ "\n"
      else command ++ "\n"
    some (s.shellFile.getD "" ++ line)

/-- Embedding of `removeFromShellHistory`: keep empty lines, drop
extended-format lines whose parsed command equals the removed command,
drop plain lines equal to it, and write the result back; failures to
read leave the file untouched. -/
def removeFromShellHistory (s : HistState) (command : String) : Option String :=
  match getShellHistoryPath s.shell with
  | none => s.shellFile
  | some _ =>
    match s.shellFile with
    | none => s.shellFile
    | some raw =>
      let kept := (splitNl raw.data).filter (fun l =>
        if l.isEmpty then true
        else
          match extMatch l with
          | some cmd => !(String.mk cmd == command)
          | none => !(String.mk l == command))
      some (String.mk (joinNl kept))

/-- Embedding of `append`: load, deduplicate and push the command,
trim, update the cache, persist the whole list to
`command-history.json`, and best-effort append to the shell history
file. -/
def append (s : HistState) (command : String) : HistState :=
  let (history, s₁) := load s
  let h := appendCmd history command
  { s₁ with
    cache := some h
    appFile := some h
    shellFile := appendToShellHistory s₁ command }

/-- Embedding of `remove`: load, and when the command is present remove
its first occurrence, update the cache, persist the whole list, and
best-effort rewrite the shell history file; when absent the operation
only fills the cache. -/
def remove (s : HistState) (command : String) : HistState :=
  let (history, s₁) := load s
  if command ∈ history then
    let h := history.erase command
    { s₁ with
      cache := some h
      appFile := some h
      shellFile := removeFromShellHistory s₁ command }
  else s₁

/-- Modelled from the spec: `CommandHistoryStore.clear` is not under
src/ (only its renderer caller `clearHistory` in
src/src/renderer/context/TerminalContext.tsx, which invokes the
`historyClear` bridge).  Per §4.3 of the design, `clear()` empties both
the in-memory list and the persisted JSON file, and leaves the shell's
own history file untouched. -/
def clear (s : HistState) : HistState :=
  { s with cache := some ([] : List String), appFile := some ([] : List String) }

/-! ## Decimal digit strings

The PTY manager builds session ids with the template literal
`` `pty-${++this.idCounter}` `` and the history store formats Unix
timestamps with `${ts}`; both are JavaScript number-to-decimal-string
conversions, embedded as `Nat.repr`.  The development below gives an
explicit most-significant-first digit list `natDigs`, identifies it with
`Nat.repr`, and derives injectivity by reading the digits back. -/

/-- Decimal digits of a natural number, most significant first, as
produced by the number-to-string conversion. -/
def natDigs (n : Nat) : List Char :=
  if _h : n / 10 = 0 then [Nat.digitChar (n % 10)]
  else natDigs (n / 10) ++ [Nat.digitChar (n % 10)]
decreasing_by
  exact Nat.div_lt_self
    (Nat.pos_of_ne_zero fun h0 => _h (by simp [h0])) (by norm_num)

theorem toDigitsCore_eq_natDigs :
    ∀ (fuel n : Nat) (ds : List Char), n < fuel →
      Nat.toDigitsCore 10 fuel n ds = natDigs n ++ ds := by
  intro fuel
  induction fuel with
  | zero => intro n ds h; omega
  | succ f ih =>
    intro n ds h
    rw [Nat.toDigitsCore, natDigs]
    by_cases h10 : n / 10 = 0
    · simp [h10]
    · have hn : 0 < n := Nat.pos_of_ne_zero fun h0 => h10 (by simp [h0])
      have hlt : n / 10 < n := Nat.div_lt_self hn (by norm_num)
      simp only [h10, if_false, dif_neg h10]
      rw [ih (n / 10) _ (by omega)]
      simp

/-- The core conversion `Nat.repr` is the digit list `natDigs` packed
into a string. -/
theorem repr_eq_natDigs (n : Nat) : Nat.repr n = String.mk (natDigs n) := by
  show (Nat.toDigitsCore 10 (n + 1) n []).asString = String.mk (natDigs n)
  rw [toDigitsCore_eq_natDigs (n + 1) n [] (Nat.lt_succ_self n)]
  simp [List.asString]

/-- Numeric value of a decimal digit character. -/
def digVal (c : Char) : Nat := c.toNat - 48

/-- Value of a most-significant-first decimal digit list. -/
def natVal (l : List Char) : Nat := l.foldl (fun a c => 10 * a + digVal c) 0

theorem digVal_digitChar : ∀ d : Nat, d < 10 → digVal (Nat.digitChar d) = d := by
  decide

theorem natVal_natDigs : ∀ n : Nat, natVal (natDigs n) = n := by
  intro n
  induction n using Nat.strong_induction_on with
  | _ n ih =>
    rw [natDigs]
    by_cases h10 : n / 10 = 0
    · have hlt : n < 10 := by omega
      have hmod : n % 10 = n := Nat.mod_eq_of_lt hlt
      have hd := digVal_digitChar n hlt
      simp [h10, natVal, hmod, hd]
    · have hn : 0 < n := Nat.pos_of_ne_zero fun h0 => h10 (by simp [h0])
      have hlt : n / 10 < n := Nat.div_lt_self hn (by norm_num)
      have hd := digVal_digitChar (n % 10) (Nat.mod_lt n (by norm_num))
      simp only [dif_neg h10, natVal, List.foldl_append, List.foldl_cons,
        List.foldl_nil]
      have := ih (n / 10) hlt
      simp only [natVal] at this
      rw [this, hd]
      omega

theorem natDigs_injective : Function.Injective natDigs := by
  intro m n h
  have := natVal_natDigs m
  rw [h, natVal_natDigs n] at this
  exact this.symm

/-- Decimal printing of natural numbers is injective. -/
theorem repr_injective : Function.Injective Nat.repr := by
  intro m n h
  rw [repr_eq_natDigs, repr_eq_natDigs] at h
  exact natDigs_injective (congrArg String.data h)

/-! ## PTY session manager (src/src/main/pty-manager.ts)

The `Map<string, PtySession>` is embedded as an insertion-ordered
association list from session id to an opaque process handle (a `Nat`
naming the underlying OS process).  Each operation returns the new
state together with its observable effect on the outside world (`none`
when the operation touched no process). -/

/-- Lookup in the embedded JavaScript `Map` (`sessions.get(id)`). -/
def mapGet (m : List (String × Nat)) (k : String) : Option Nat :=
  (m.find? (fun q => q.1 == k)).map Prod.snd

/-- Deletion from the embedded JavaScript `Map`
(`sessions.delete(id)`). -/
def mapDelete (m : List (String × Nat)) (k : String) : List (String × Nat) :=
  m.filter (fun q => !(q.1 == k))

/-- State of `PtyManager`: the id-to-session table and the monotonic id
counter (`private idCounter = 0`). -/
structure PtyState where
  sessions : List (String × Nat)
  idCounter : Nat

/-- Session id built by `spawn`: the template literal
`` `pty-${++this.idCounter}` ``. -/
def ptyIdStr (n : Nat) : String := "pty-" ++ Nat.repr n

/-- Embedding of `PtyManager.spawn`: increment the counter, build the
fresh id, register the session (the spawned process handle is named by
the counter value), and return the id.  The terminal dimensions are
forwarded to the underlying `pty.spawn` call and do not enter the
manager's state. -/
def spawn (st : PtyState) (_cols _rows : Nat) : String × PtyState :=
  let ctr := st.idCounter + 1
  let id := ptyIdStr ctr
  (id, { sessions := mapSet st.sessions id ctr, idCounter := ctr })

/-- Embedding of `PtyManager.write`:
`this.sessions.get(id)?.process.write(data)` — the optional chain makes
an unknown id a silent no-op; a known id forwards the data to the
session's process (the effect). -/
def write (st : PtyState) (id data : String) : PtyState × Option (Nat × String) :=
  match mapGet st.sessions id with
  | none => (st, none)
  | some h => (st, some (h, data))

/-- Embedding of `PtyManager.resize`, with the same optional-chain
no-op behavior as `write`. -/
def resize (st : PtyState) (id : String) (cols rows : Nat) :
    PtyState × Option (Nat × Nat × Nat) :=
  match mapGet st.sessions id with
  | none => (st, none)
  | some h => (st, some (h, cols, rows))

/-- Embedding of `PtyManager.kill`: terminate the process and drop the
session when present, otherwise a no-op. -/
def kill (st : PtyState) (id : String) : PtyState × Option Nat :=
  match mapGet st.sessions id with
  | none => (st, none)
  | some h => ({ st with sessions := mapDelete st.sessions id }, some h)

/-- Exit notification payload (`{ exitCode, signal }` from node-pty,
relayed with the session id). -/
structure ExitEvent where
  id : String
  exitCode : Int
  signal : Int

/-- Embedding of one event-loop turn of the exit handler installed by
`PtyManager.onExit`: when the underlying process of a registered
session terminates, the wrapper synchronously invokes the callback with
`(exitCode, signal)` and deletes the session from the table.  Both
happen inside the same notification turn, so from every other task's
point of view delivery and removal are atomic. -/
def fireExit (st : PtyState) (id : String) (exitCode signal : Int) :
    PtyState × Option ExitEvent :=
  match mapGet st.sessions id with
  | none => (st, none)
  | some _ =>
    ({ st with sessions := mapDelete st.sessions id }, some ⟨id, exitCode, signal⟩)

/-- Embedding of `PtyManager.disposeAll`: kill every live session. -/
def disposeAll (st : PtyState) : PtyState :=
  (st.sessions.map Prod.fst).foldl (fun s i => (kill s i).1) st

/-- One external stimulus applied to the manager within a process
lifetime. -/
inductive PtyOp where
  | spawn (cols rows : Nat)
  | write (id data : String)
  | resize (id : String) (cols rows : Nat)
  | kill (id : String)
  | fireExit (id : String) (exitCode signal : Int)
  | disposeAll

/-- Apply one operation, recording the id returned when the operation
is a spawn. -/
def step (st : PtyState) : PtyOp → PtyState × Option String
  | .spawn c r => let p := spawn st c r; (p.2, some p.1)
  | .write i d => ((write st i d).1, none)
  | .resize i c r => ((resize st i c r).1, none)
  | .kill i => ((kill st i).1, none)
  | .fireExit i c s => ((fireExit st i c s).1, none)
  | .disposeAll => (disposeAll st, none)

/-- Run a sequence of operations, collecting every id handed out by
`spawn` in order. -/
def runOps (st : PtyState) : List PtyOp → PtyState × List String
  | [] => (st, [])
  | op :: ops =>
    let p := step st op
    let q := runOps p.1 ops
    (q.1, p.2.toList ++ q.2)

/-- Number of spawn operations in a stimulus sequence. -/
def countSpawns (ops : List PtyOp) : Nat :=
  ops.countP (fun op => match op with | .spawn _ _ => true | _ => false)

/-! ## CWD resolver -/

/-- Outcomes of the OS introspection the resolver performs.  Every
query is fallible: the session may be gone from the table, the shell's
process may have exited, the child listing may fail or be empty, and
the cwd query may fail or produce unparseable output — each failure is
a `none`. -/
structure CwdEnv where
  sessionPid : String → Option Nat
  newestChild : Nat → Option Nat
  queryCwd : Nat → Option String

/-- Modelled from the spec: `PtyManager.getCwd` is not under src/ (only
its caller, the `fs:getCwd` IPC handler registered in
src/unnamed/part_003, which returns `ptyManager.getCwd(ptyId)` typed
`Promise<string | null>`).  Per §4.2 of the design: locate the
session's OS process id; find the most-recently-created direct child of
that pid; query that child's (or, if there is none, the shell's own)
working directory; on any lookup failure return the unknown value
(`null` at the IPC boundary, `none` here) rather than raising.  The
function is total, so no call can throw. -/
def getCwd (env : CwdEnv) (id : String) : Option String :=
  match env.sessionPid id with
  | none => none
  | some pid => env.queryCwd ((env.newestChild pid).getD pid)

/-! ## Generic JSON persistence (src/src/main/persistence/store.ts)

`JsonStore<T>` writes `JSON.stringify(data, null, 2)` to its file and
reads it back with `JSON.parse(raw) as T`, returning the default value
when the file is missing or unparseable.  The serialized form is
embedded at the string level: `Json` below is the space of values the
two instantiations (`string[]` for command-history.json,
`StickyCommand[]` for sticky-commands.json) serialize to, `stringifyVal`
is ECMA-262 `JSON.stringify` with a two-space gap, and `parseValue` is
`JSON.parse` restricted to that value space (numbers are the
non-negative integers produced by `Date.now()`; the unchecked `as T`
cast is modelled by a typed decoder, which succeeds on every file that
`save` produces). -/

inductive Json where
  | num (n : Nat)
  | str (s : String)
  | arr (elems : List Json)
  | obj (fields : List (String × Json))

/-- Escaping of one character inside a JSON string literal, after
ECMA-262 QuoteJSONString: quote and backslash get a backslash escape,
the control characters with short escapes use them, the remaining
control characters become `\u00` followed by two lowercase hex digits,
and everything else stands for itself. -/
def escapeChar (c : Char) : List Char :=
  if c = '"' then ['\\', '"']
  else if c = '\\' then ['\\', '\\']
  else if c = '\x08' then ['\\', 'b']
  else if c = '\x0c' then ['\\', 'f']
  else if c = '\n' then ['\\', 'n']
  else if c = '\r' then ['\\', 'r']
  else if c = '\t' then ['\\', 't']
  else if c.toNat < 32 then
    ['\\', 'u', '0', '0', Nat.digitChar (c.toNat / 16), Nat.digitChar (c.toNat % 16)]
  else [c]

/-- Serialization of a JSON string literal: quote, escaped body,
quote. -/
def quoteStr (s : String) : List Char :=
  '"' :: (s.data.flatMap escapeChar ++ ['"'])

/-- Indentation produced by `JSON.stringify(data, null, 2)` at nesting
depth `d`. -/
def jIndent (d : Nat) : List Char := List.replicate (2 * d) ' '

mutual

/-- ECMA-262 `JSON.stringify(v, null, 2)` at nesting depth `d`:
numbers print in decimal, strings are quoted, the empty array and
object print without a gap, and nonempty ones put each element on its
own indented line. -/
def stringifyVal : Nat → Json → List Char
  | _, .num n => natDigs n
  | _, .str s => quoteStr s
  | _, .arr [] => ['[', ']']
  | d, .arr (x :: xs) =>
    '[' :: '\n' :: (stringifyItems (d + 1) x xs ++ ('\n' :: (jIndent d ++ [']'])))
  | _, .obj [] => ['\x7b', '\x7d']
  | d, .obj (f :: fs) =>
    '\x7b' :: '\n' :: (stringifyFields (d + 1) f fs ++ ('\n' :: (jIndent d ++ ['\x7d'])))
termination_by _ j => sizeOf j

/-- Array elements, one per line at depth `d`, comma-separated. -/
def stringifyItems : Nat → Json → List Json → List Char
  | d, x, [] => jIndent d ++ stringifyVal d x
  | d, x, y :: ys =>
    (jIndent d ++ stringifyVal d x) ++ (',' :: '\n' :: stringifyItems d y ys)
termination_by _ x xs => 1 + sizeOf x + sizeOf xs

/-- Object members, one per line at depth `d`, `"key": value`,
comma-separated. -/
def stringifyFields : Nat → String × Json → List (String × Json) → List Char
  | d, (k, v), [] => (jIndent d ++ quoteStr k) ++ (':' :: ' ' :: stringifyVal d v)
  | d, (k, v), g :: gs =>
    ((jIndent d ++ quoteStr k) ++ (':' :: ' ' :: stringifyVal d v)) ++
      (',' :: '\n' :: stringifyFields d g gs)
termination_by _ f fs => 1 + sizeOf f + sizeOf fs

end

/-- Full serialized file contents written by `JsonStore.save`. -/
def jsonText (j : Json) : String := String.mk (stringifyVal 0 j)

/-- JSON whitespace accepted between tokens by `JSON.parse`. -/
def isWs (c : Char) : Bool :=
  (c == ' ') || (c == '\t') || (c == '\n') || (c == '\r')

/-- Skip JSON whitespace. -/
def skipWs (cs : List Char) : List Char := cs.dropWhile isWs

/-- Value of one hex digit in a `\uXXXX` escape. -/
def hexVal? (c : Char) : Option Nat :=
  if '0' ≤ c ∧ c ≤ '9' then some (c.toNat - 48)
  else if 'a' ≤ c ∧ c ≤ 'f' then some (c.toNat - 87)
  else if 'A' ≤ c ∧ c ≤ 'F' then some (c.toNat - 55)
  else none

/-- Character denoted by a short escape `\e`. -/
def unescape? (e : Char) : Option Char :=
  if e = '"' then some '"'
  else if e = '\\' then some '\\'
  else if e = '/' then some '/'
  else if e = 'b' then some '\x08'
  else if e = 'f' then some '\x0c'
  else if e = 'n' then some '\n'
  else if e = 'r' then some '\r'
  else if e = 't' then some '\t'
  else none

/-- Body of a JSON string literal, after the opening quote: returns the
decoded characters and the input following the closing quote.  Raw
control characters are rejected, as in `JSON.parse`.  (A `\uXXXX`
escape denoting a lone surrogate goes through `Char.ofNat`'s total
default; none arises from serialized output, where only `\u00XX`
control escapes occur.) -/
def parseStrBody : List Char → Option (List Char × List Char)
  | [] => none
  | c :: rest =>
    if c = '"' then some ([], rest)
    else if c = '\\' then
      match rest with
      | [] => none
      | e :: rest' =>
        if e = 'u' then
          match rest' with
          | h1 :: h2 :: h3 :: h4 :: rest2 =>
            match hexVal? h1, hexVal? h2, hexVal? h3, hexVal? h4 with
            | some a, some b, some c2, some d2 =>
              (parseStrBody rest2).map
                (fun p => (Char.ofNat (((a * 16 + b) * 16 + c2) * 16 + d2) :: p.1, p.2))
            | _, _, _, _ => none
          | _ => none
        else
          match unescape? e with
          | some c' => (parseStrBody rest').map (fun p => (c' :: p.1, p.2))
          | none => none
    else if c.toNat < 32 then none
    else (parseStrBody rest).map (fun p => (c :: p.1, p.2))

/-- Non-negative integer literal: a nonempty run of decimal digits
(the only number shape the serializer emits). -/
def parseNum (cs : List Char) : Option (Nat × List Char) :=
  let ds := cs.takeWhile Char.isDigit
  if ds.isEmpty then none
  else some (natVal ds, cs.dropWhile Char.isDigit)

mutual

/-- Recursive-descent `JSON.parse` over the value space, with fuel
bounding the nesting depth. -/
def parseValue : Nat → List Char → Option (Json × List Char)
  | 0, _ => none
  | fuel + 1, cs =>
    match skipWs cs with
    | [] => none
    | c :: rest =>
      if c = '"' then
        (parseStrBody rest).map (fun p => (Json.str (String.mk p.1), p.2))
      else if c = '[' then
        match skipWs rest with
        | ']' :: rest' => some (Json.arr [], rest')
        | cs' => (parseItems fuel cs').map (fun p => (Json.arr p.1, p.2))
      else if c = '\x7b' then
        match skipWs rest with
        | '\x7d' :: rest' => some (Json.obj [], rest')
        | cs' => (parseFields fuel cs').map (fun p => (Json.obj p.1, p.2))
      else if c.isDigit then
        (parseNum (c :: rest)).map (fun p => (Json.num p.1, p.2))
      else none

/-- Comma-separated array elements up to and including the closing
bracket. -/
def parseItems : Nat → List Char → Option (List Json × List Char)
  | 0, _ => none
  | fuel + 1, cs =>
    match parseValue fuel cs with
    | none => none
    | some (v, r) =>
      match skipWs r with
      | ',' :: r2 =>
        match parseItems fuel r2 with
        | none => none
        | some (vs, r3) => some (v :: vs, r3)
      | ']' :: r2 => some ([v], r2)
      | _ => none

/-- Comma-separated object members up to and including the closing
brace. -/
def parseFields : Nat → List Char → Option (List (String × Json) × List Char)
  | 0, _ => none
  | fuel + 1, cs =>
    match skipWs cs with
    | '"' :: r0 =>
      match parseStrBody r0 with
      | none => none
      | some (k, r1) =>
        match skipWs r1 with
        | ':' :: r2 =>
          match parseValue fuel r2 with
          | none => none
          | some (v, r3) =>
            match skipWs r3 with
            | ',' :: r4 =>
              match parseFields fuel r4 with
              | none => none
              | some (fs, r5) => some ((String.mk k, v) :: fs, r5)
            | '\x7d' :: r4 => some ([(String.mk k, v)], r4)
            | _ => none
        | _ => none
    | _ => none

end

/-- Whole-input `JSON.parse`: parse one value and require only
whitespace after it. -/
def jsonParse (s : String) : Option Json :=
  match parseValue (s.data.length + 1) s.data with
  | some (j, rest) => if (skipWs rest).isEmpty then some j else none
  | none => none

/-- Text following one serialized array element: either the closing
line of the array (when the element is last) or the comma, newline and
remaining elements.  This is the shape in which `parseItems` walks the
serializer's output. -/
def itemsRest (d' d : Nat) (xs : List Json) (rest : List Char) : List Char :=
  match xs with
  | [] => '\n' :: (jIndent d ++ (']' :: rest))
  | y :: ys =>
    ',' :: '\n' :: (stringifyItems d' y ys ++ ('\n' :: (jIndent d ++ (']' :: rest))))

/-- Text following one serialized object member, analogously. -/
def fieldsRest (d' d : Nat) (fs : List (String × Json)) (rest : List Char) : List Char :=
  match fs with
  | [] => '\n' :: (jIndent d ++ ('\x7d' :: rest))
  | g :: gs =>
    ',' :: '\n' :: (stringifyFields d' g gs ++ ('\n' :: (jIndent d ++ ('\x7d' :: rest))))

mutual

/-- Depth-flavored size of a JSON value, used to discharge the parser's
fuel. -/
def jsize : Json → Nat
  | .num _ => 1
  | .str _ => 1
  | .arr xs => 1 + jsizeL xs
  | .obj fs => 1 + jsizeF fs
termination_by j => sizeOf j

def jsizeL : List Json → Nat
  | [] => 0
  | x :: xs => 1 + jsize x + jsizeL xs
termination_by l => sizeOf l

def jsizeF : List (String × Json) → Nat
  | [] => 0
  | (_, v) :: fs => 1 + jsize v + jsizeF fs
termination_by l => sizeOf l

end

/-- Sticky command record
(src/src/main/persistence/sticky-commands.ts). -/
structure StickyCommand where
  id : String
  label : String
  command : String
  createdAt : Nat
deriving DecidableEq

/-- JSON image of a `string[]` value. -/
def encodeStrList (l : List String) : Json := .arr (l.map .str)

/-- JSON image of one sticky command, fields in object-literal order. -/
def encodeSticky (c : StickyCommand) : Json :=
  .obj [("id", .str c.id), ("label", .str c.label),
        ("command", .str c.command), ("createdAt", .num c.createdAt)]

/-- JSON image of a `StickyCommand[]` value. -/
def encodeStickyList (l : List StickyCommand) : Json :=
  .arr (l.map encodeSticky)

/-- Typed reading of a parsed JSON value as a `string[]` (the model of
the unchecked `as T` cast on the command-history instantiation). -/
def decodeStrs : List Json → Option (List String)
  | [] => some []
  | .str s :: es =>
    match decodeStrs es with
    | some l => some (s :: l)
    | none => none
  | _ :: _ => none

def decodeStrList : Json → Option (List String)
  | .arr es => decodeStrs es
  | _ => none

/-- Typed reading of one parsed sticky command. -/
def decodeSticky : Json → Option StickyCommand
  | .obj [("id", .str i), ("label", .str l), ("command", .str c),
          ("createdAt", .num t)] => some ⟨i, l, c, t⟩
  | _ => none

def decodeStickys : List Json → Option (List StickyCommand)
  | [] => some []
  | e :: es =>
    match decodeSticky e, decodeStickys es with
    | some c, some l => some (c :: l)
    | _, _ => none

def decodeStickyList : Json → Option (List StickyCommand)
  | .arr es => decodeStickys es
  | _ => none

/-- Embedding of `JsonStore.save` for the command-history
instantiation: the file now holds the pretty-printed JSON of the
list (the `mkdir` directory-ensure step always succeeds here, so the
write goes through). -/
def commandHistoryStoreSave (l : List String) : Option String :=
  some (jsonText (encodeStrList l))

/-- Embedding of `JsonStore.load` for the command-history
instantiation: a missing file or a parse failure falls back to the
default `[]`; a parsed value is read back as `string[]`. -/
def commandHistoryStoreLoad (file : Option String) : List String :=
  match file with
  | none => []
  | some raw =>
    match jsonParse raw with
    | none => []
    | some j => (decodeStrList j).getD []

/-- Embedding of `StickyCommandsStore.save`
(`JsonStore<StickyCommand[]>('sticky-commands.json', [])`). -/
def stickyStoreSave (l : List StickyCommand) : Option String :=
  some (jsonText (encodeStickyList l))

/-- Embedding of `StickyCommandsStore.load`, default `[]`. -/
def stickyStoreLoad (file : Option String) : List StickyCommand :=
  match file with
  | none => []
  | some raw =>
    match jsonParse raw with
    | none => []
    | some j => (decodeStickyList j).getD []

/-! ## Helper lemmas -/

theorem getLast?_drop_of_lt {α : Type} :
    ∀ (l : List α) (n : Nat), n < l.length → (l.drop n).getLast? = l.getLast?
  | [], n, h => by simp at h
  | x :: xs, 0, _ => by simp
  | x :: xs, n + 1, h => by
    have hx : n < xs.length := by simpa using h
    rw [List.drop_succ_cons, getLast?_drop_of_lt xs n hx]
    match xs, hx with
    | y :: ys, _ => simp [List.getLast?_cons_cons]

theorem trimFront_eq_drop (l : List String) :
    trimFront l = l.drop (l.length - MAX_HISTORY) := by
  unfold trimFront
  by_cases h : l.length > MAX_HISTORY
  · simp [h]
  · have : l.length - MAX_HISTORY = 0 := by omega
    simp [h, this]

theorem trimFront_length (l : List String) : (trimFront l).length ≤ MAX_HISTORY := by
  unfold trimFront
  by_cases h : l.length > MAX_HISTORY
  · simp [h]; omega
  · simp [h]; omega

theorem trimFront_of_le (l : List String) (h : l.length ≤ MAX_HISTORY) :
    trimFront l = l := by
  unfold trimFront
  simp [Nat.not_lt_of_le h]

theorem trimFront_getLast? (l : List String) (h : l ≠ []) :
    (trimFront l).getLast? = l.getLast? := by
  rw [trimFront_eq_drop]
  apply getLast?_drop_of_lt
  have : 0 < l.length := List.length_pos.mpr h
  have : MAX_HISTORY = 5000 := rfl
  omega

theorem trimFront_nodup (l : List String) (h : l.Nodup) : (trimFront l).Nodup := by
  rw [trimFront_eq_drop]
  exact (List.drop_sublist _ _).nodup h

theorem mapGet_mapDelete (m : List (String × Nat)) (k : String) :
    mapGet (mapDelete m k) k = none := by
  simp only [mapGet, mapDelete, Option.map_eq_none', List.find?_eq_none,
    List.mem_filter]
  intro q hq
  simp at hq
  simp [hq.2]

theorem startsWith_of_extMatch (cs : List Char) (c : List Char)
    (h : extMatch cs = some c) : jsStartsWith cs ": ".data = true := by
  unfold extMatch at h
  split at h
  · show jsStartsWith (':' :: ' ' :: _) _ = true
    simp [jsStartsWith, List.isPrefixOf]
  · exact absurd h (by simp)

theorem kill_idCounter (st : PtyState) (i : String) :
    ((kill st i).1).idCounter = st.idCounter := by
  cases hm : mapGet st.sessions i <;> simp [kill, hm]

theorem disposeAll_idCounter (st : PtyState) :
    (disposeAll st).idCounter = st.idCounter := by
  unfold disposeAll
  generalize st.sessions.map Prod.fst = ids
  induction ids generalizing st with
  | nil => rfl
  | cons i ids ih => rw [List.foldl_cons, ih, kill_idCounter]

theorem string_data_append (s t : String) : (s ++ t).data = s.data ++ t.data := rfl

theorem ptyIdStr_injective : Function.Injective ptyIdStr := by
  intro m n h
  unfold ptyIdStr at h
  have hd := congrArg String.data h
  rw [string_data_append, string_data_append] at hd
  exact repr_injective (String.ext (List.append_cancel_left hd))

theorem runOps_spawn_ids (ops : List PtyOp) :
    ∀ st : PtyState, (runOps st ops).2 =
      (List.range (countSpawns ops)).map (fun i => ptyIdStr (st.idCounter + i + 1)) := by
  induction ops with
  | nil => intro st; simp [runOps, countSpawns]
  | cons op ops ih =>
    intro st
    cases op with
    | spawn c r =>
      have hcount : countSpawns (.spawn c r :: ops) = countSpawns ops + 1 := by
        simp [countSpawns, List.countP_cons]
      rw [hcount]
      show (ptyIdStr (st.idCounter + 1)) ::
          (runOps { sessions := mapSet st.sessions (ptyIdStr (st.idCounter + 1))
                      (st.idCounter + 1), idCounter := st.idCounter + 1 } ops).2 = _
      rw [ih]
      rw [List.range_succ_eq_map, List.map_cons, List.map_map]
      refine congrArg₂ List.cons (by norm_num) ?_
      apply List.map_congr_left
      intro i _
      show ptyIdStr (st.idCounter + 1 + i + 1) = ptyIdStr (st.idCounter + (i + 1) + 1)
      exact congrArg ptyIdStr (by omega)
    | write i d =>
      have : countSpawns (.write i d :: ops) = countSpawns ops := by
        simp [countSpawns, List.countP_cons]
      rw [this]
      show (runOps (write st i d).1 ops).2 = _
      have hw : (write st i d).1 = st := by
        cases hm : mapGet st.sessions i <;> simp [Origin.write, hm]
      rw [hw, ih]
    | resize i c r =>
      have : countSpawns (.resize i c r :: ops) = countSpawns ops := by
        simp [countSpawns, List.countP_cons]
      rw [this]
      show (runOps (resize st i c r).1 ops).2 = _
      have hw : (resize st i c r).1 = st := by
        cases hm : mapGet st.sessions i <;> simp [Origin.resize, hm]
      rw [hw, ih]
    | kill i =>
      have : countSpawns (.kill i :: ops) = countSpawns ops := by
        simp [countSpawns, List.countP_cons]
      rw [this]
      show (runOps (kill st i).1 ops).2 = _
      rw [ih, kill_idCounter]
    | fireExit i c s =>
      have : countSpawns (.fireExit i c s :: ops) = countSpawns ops := by
        simp [countSpawns, List.countP_cons]
      rw [this]
      show (runOps (fireExit st i c s).1 ops).2 = _
      have hw : ((fireExit st i c s).1).idCounter = st.idCounter := by
        cases hm : mapGet st.sessions i <;> simp [Origin.fireExit, hm]
      rw [ih, hw]
    | disposeAll =>
      have : countSpawns (.disposeAll :: ops) = countSpawns ops := by
        simp [countSpawns, List.countP_cons]
      rw [this]
      show (runOps (disposeAll st) ops).2 = _
      rw [ih, disposeAll_idCounter]

/-! ## Claim theorems -/

/-- C1: for every session id, `getCwd(id)` returns a path or the
unknown value and never throws: the embedded lookup is a total function
into `Option String`; it yields the unknown value (`none`) exactly when
the session lookup fails or the OS cwd query on the chosen process (the
newest child, or the shell itself when no child exists) fails, and a
path otherwise. -/
theorem getCwd_degrades_to_unknown (env : CwdEnv) (id : String) :
    (env.sessionPid id = none → getCwd env id = none) ∧
    (∀ pid, env.sessionPid id = some pid →
      getCwd env id = env.queryCwd ((env.newestChild pid).getD pid)) ∧
    (getCwd env id = none ∨ ∃ p, getCwd env id = some p) := by
  refine ⟨fun h => by simp [getCwd, h], fun pid h => by simp [getCwd, h], ?_⟩
  cases h : getCwd env id
  · exact Or.inl rfl
  · exact Or.inr ⟨_, rfl⟩

theorem getCwd_degrades_witness :
    getCwd ⟨fun _ => none, fun _ => none, fun _ => none⟩ "pty-1" = none :=
  (getCwd_degrades_to_unknown ⟨fun _ => none, fun _ => none, fun _ => none⟩
    "pty-1").1 rfl

/-- C2: `clear()` empties both the in-memory history list and the
persisted command-history.json contents, and leaves the shell's own
history file (and the rest of the environment) untouched. -/
theorem clear_empties_memory_and_json (s : HistState) :
    (clear s).cache = some [] ∧ (clear s).appFile = some [] ∧
    (clear s).shellFile = s.shellFile ∧ (clear s).shell = s.shell :=
  ⟨rfl, rfl, rfl, rfl⟩

/-- C3: the exit notification turn removes the session from the
id-to-session table atomically with the delivery of the event, so after
the exit event for an id fires, a `write` or `resize` on that id leaves
the state unchanged and reaches no process (it cannot throw: the
optional chain makes an absent id a silent no-op). -/
theorem post_exit_write_resize_noop (st : PtyState) (id : String)
    (code sig : Int) (d : String) (cols rows : Nat) :
    mapGet ((fireExit st id code sig).1).sessions id = none ∧
    write (fireExit st id code sig).1 id d = ((fireExit st id code sig).1, none) ∧
    resize (fireExit st id code sig).1 id cols rows =
      ((fireExit st id code sig).1, none) := by
  have hget : mapGet ((fireExit st id code sig).1).sessions id = none := by
    cases hm : mapGet st.sessions id with
    | none => simp [fireExit, hm]
    | some h => simp [fireExit, hm, mapGet_mapDelete]
  exact ⟨hget, by simp [write, hget], by simp [resize, hget]⟩

/-- C4: within one process lifetime the ids handed out by spawn are
exactly "pty-1", "pty-2", ... in order of the spawn calls — whatever
writes, resizes, kills, exits and disposals are interleaved — hence
pairwise distinct, never reused, and strictly increasing in their
numeric suffix. -/
theorem spawn_ids_distinct_increasing (ops : List PtyOp) :
    (runOps ⟨[], 0⟩ ops).2 =
      (List.range (countSpawns ops)).map (fun i => ptyIdStr (i + 1)) ∧
    (runOps ⟨[], 0⟩ ops).2.Nodup ∧
    ptyIdStr 1 = "pty-1" ∧ ptyIdStr 2 = "pty-2" := by
  have hids := runOps_spawn_ids ops ⟨[], 0⟩
  simp only at hids
  have hmap : (runOps ⟨[], 0⟩ ops).2 =
      (List.range (countSpawns ops)).map (fun i => ptyIdStr (i + 1)) := by
    rw [hids]
    apply List.map_congr_left
    intro i _
    exact congrArg ptyIdStr (by omega)
  refine ⟨hmap, ?_, by decide, by decide⟩
  rw [hmap]
  exact (List.nodup_range _).map
    (fun a b hab => by simpa using ptyIdStr_injective hab)

/-- C5: the history load merge keeps each command's last position in
the concatenation shell-history-then-app-history and sorts survivors by
that position: for shell history [a, b] and app history [b, c] (three
distinct commands) the merged result is [a, b, c]. -/
theorem merge_recency (a b c : String) (hab : a ≠ b) (hbc : b ≠ c)
    (hac : a ≠ c) : mergeHistories [a, b] [b, c] = [a, b, c] := by
  simp +decide [mergeHistories, buildSeen, mapSet, trimFront, MAX_HISTORY,
    List.enum, List.enumFrom, List.insertionSort, List.orderedInsert,
    hab, hbc, hac]

theorem merge_recency_witness :
    mergeHistories ["a", "b"] ["b", "c"] = ["a", "b", "c"] :=
  merge_recency "a" "b" "c" (by decide) (by decide) (by decide)

/-- C6: `append(c)` moves an already-present command to the
most-recent (last) position without duplicating it: on a duplicate-free
list within the size bound the length is unchanged when the command was
present and grows by one otherwise (absent truncation), the appended
command is last, and the result is again duplicate-free; in particular
append("ls -la"); append("cd /tmp"); append("ls -la") starting from the
empty history yields ["cd /tmp", "ls -la"]. -/
theorem append_dedup_moves_to_recent (h : List String) (c : String)
    (hnd : h.Nodup) (hlen : h.length ≤ MAX_HISTORY) :
    (c ∈ h → (appendCmd h c).length = h.length) ∧
    (c ∉ h → h.length < MAX_HISTORY → (appendCmd h c).length = h.length + 1) ∧
    (appendCmd h c).getLast? = some c ∧
    (appendCmd h c).Nodup ∧
    appendCmd (appendCmd (appendCmd [] "ls -la") "cd /tmp") "ls -la" =
      ["cd /tmp", "ls -la"] := by
  refine ⟨?_, ?_, ?_, ?_, by decide⟩
  · intro hmem
    have hpos : 0 < h.length := List.length_pos.mpr (List.ne_nil_of_mem hmem)
    have hlen' : (h.erase c ++ [c]).length = h.length := by
      simp [List.length_erase_of_mem hmem]; omega
    rw [appendCmd, trimFront_of_le _ (by omega), hlen']
  · intro hmem hlt
    have hlen' : (h.erase c ++ [c]).length = h.length + 1 := by
      simp [List.erase_of_not_mem hmem]
    rw [appendCmd, trimFront_of_le _ (by omega), hlen']
  · rw [appendCmd, trimFront_getLast? _ (by simp), List.getLast?_concat]
  · apply trimFront_nodup
    have herase : (h.erase c).Nodup := hnd.erase c
    have hnotmem : c ∉ h.erase c := hnd.not_mem_erase
    simp [List.nodup_append, herase, hnotmem]

theorem append_dedup_witness :
    (["ls -la", "cd /tmp"] : List String).Nodup ∧
    (["ls -la", "cd /tmp"] : List String).length ≤ MAX_HISTORY ∧
    (appendCmd ["ls -la", "cd /tmp"] "ls -la").length = 2 ∧
    appendCmd ["ls -la", "cd /tmp"] "ls -la" = ["cd /tmp", "ls -la"] := by
  refine ⟨by decide, by decide, ?_, by decide⟩
  exact (append_dedup_moves_to_recent ["ls -la", "cd /tmp"] "ls -la"
    (by decide) (by decide)).1 (by decide)

/-- C7: after any append, and after the merged load, the history holds
at most MAX_HISTORY = 5000 entries; when the limit would be exceeded
entries are dropped from the front (the result is a suffix of the
untrimmed list) and the newest entry survives at the last position. -/
theorem history_bounded_drop_oldest :
    (∀ (h : List String) (c : String),
      (appendCmd h c).length ≤ MAX_HISTORY ∧
      appendCmd h c =
        (h.erase c ++ [c]).drop ((h.erase c ++ [c]).length - MAX_HISTORY) ∧
      (appendCmd h c).getLast? = some c) ∧
    (∀ shellH appH : List String,
      (mergeHistories shellH appH).length ≤ MAX_HISTORY) := by
  constructor
  · intro h c
    refine ⟨trimFront_length _, trimFront_eq_drop _, ?_⟩
    rw [appendCmd, trimFront_getLast? _ (by simp), List.getLast?_concat]
  · intro shellH appH
    exact trimFront_length _

/-- C9: reading the shell history file parses both supported formats:
an extended-history line such as ": 1700000000:0;git status" yields the
text after the semicolon, a nonempty plain line (one not starting with
": ") yields the line itself, and with app history empty and a shell
history file containing only the extended line, load() returns
["git status"]. -/
theorem shell_history_two_formats :
    (∀ line : String, line ≠ "" → jsStartsWith line.data ": ".data = false →
      lineCommands line = [line]) ∧
    lineCommands ": 1700000000:0;git status" = ["git status"] ∧
    (load ⟨"/bin/zsh", some ": 1700000000:0;git status",
      some [], none, 0⟩).1 = ["git status"] := by
  refine ⟨?_, by decide, by decide⟩
  intro line hne hsw
  unfold lineCommands
  rw [if_neg hne]
  cases hm : extMatch line.data with
  | some cmd =>
    exact absurd (startsWith_of_extMatch _ _ hm) (by simp [hsw])
  | none => simp [hsw]

theorem shell_history_witness :
    ("git status" : String) ≠ "" ∧
    jsStartsWith "git status".data ": ".data = false ∧
    lineCommands "git status" = ["git status"] :=
  ⟨by decide, by decide,
    shell_history_two_formats.1 "git status" (by decide) (by decide)⟩

/-- C10: every mutation persists the entire current merged in-memory
list to command-history.json: `append(c)` writes the whole merged list
with `c` appended and `remove(c)` writes the whole merged list with `c`
removed — so entries that originated only in the shell's history file
are written to the app's JSON file too, as the concrete instance with
shell history ["a"] and no app file shows. -/
theorem mutations_persist_full_list :
    (∀ (s : HistState) (c : String),
      (append s c).appFile = some (appendCmd (load s).1 c)) ∧
    (∀ (s : HistState) (c : String), c ∈ (load s).1 →
      (remove s c).appFile = some ((load s).1.erase c)) ∧
    (append ⟨"/bin/bash", some "a", none, none, 0⟩ "b").appFile =
      some ["a", "b"] := by
  refine ⟨?_, ?_, by decide⟩
  · intro s c
    unfold append
    rcases hp : load s with ⟨history, s₁⟩
    simp
  · intro s c hmem
    unfold remove
    rcases hp : load s with ⟨history, s₁⟩
    have : c ∈ history := by rw [hp] at hmem; exact hmem
    simp [this]

theorem mutations_persist_witness :
    ("a" : String) ∈ (load ⟨"/bin/bash", some "a", none, none, 0⟩).1 ∧
    (remove ⟨"/bin/bash", some "a", none, none, 0⟩ "a").appFile =
      some ((load ⟨"/bin/bash", some "a", none, none, 0⟩).1.erase "a") :=
  ⟨by decide,
    mutations_persist_full_list.2.1
      ⟨"/bin/bash", some "a", none, none, 0⟩ "a" (by decide)⟩

/-! ## JSON round-trip lemmas -/

theorem natDigs_ne_nil (n : Nat) : natDigs n ≠ [] := by
  rw [natDigs]; split <;> simp

theorem digitChar_isDigit : ∀ d : Nat, d < 10 → (Nat.digitChar d).isDigit = true := by
  decide

theorem natDigs_all_digit : ∀ n : Nat, ∀ c ∈ natDigs n, c.isDigit = true := by
  intro n
  induction n using Nat.strong_induction_on with
  | _ n ih =>
    rw [natDigs]
    by_cases h10 : n / 10 = 0
    · simp [h10]
      exact digitChar_isDigit _ (Nat.mod_lt n (by norm_num))
    · have hn : 0 < n := Nat.pos_of_ne_zero fun h0 => h10 (by simp [h0])
      simp only [dif_neg h10, List.mem_append, List.mem_singleton]
      rintro c (hc | rfl)
      · exact ih (n / 10) (Nat.div_lt_self hn (by norm_num)) c hc
      · exact digitChar_isDigit _ (Nat.mod_lt n (by norm_num))

theorem isDigit_facts (c : Char) (h : c.isDigit = true) :
    isWs c = false ∧ c ≠ '"' ∧ c ≠ '[' ∧ c ≠ '\x7b' ∧ c ≠ ']' ∧
      c ≠ '\x7d' ∧ c ≠ ',' := by
  constructor
  · by_contra hw
    simp only [Bool.not_eq_false] at hw
    simp only [isWs, Bool.or_eq_true, beq_iff_eq] at hw
    rcases hw with ((rfl | rfl) | rfl) | rfl <;> exact absurd h (by decide)
  refine ⟨?_, ?_, ?_, ?_, ?_, ?_⟩ <;> (rintro rfl; exact absurd h (by decide))

theorem takeWhile_append_all {p : Char → Bool} :
    ∀ (l r : List Char), (∀ c ∈ l, p c = true) →
      (l ++ r).takeWhile p = l ++ r.takeWhile p
  | [], _, _ => rfl
  | c :: l, r, h => by
    have hc := h c (by simp)
    simp [List.takeWhile_cons, hc,
      takeWhile_append_all l r (fun x hx => h x (by simp [hx]))]

theorem dropWhile_append_all {p : Char → Bool} :
    ∀ (l r : List Char), (∀ c ∈ l, p c = true) →
      (l ++ r).dropWhile p = r.dropWhile p
  | [], _, _ => rfl
  | c :: l, r, h => by
    simp only [List.cons_append, List.dropWhile_cons, h c (by simp)]
    exact dropWhile_append_all l r (fun x hx => h x (by simp [hx]))

theorem dropWhile_eq_self_of_takeWhile_nil {p : Char → Bool} (r : List Char)
    (h : r.takeWhile p = []) : r.dropWhile p = r := by
  cases r with
  | nil => rfl
  | cons c t =>
    rw [List.takeWhile_cons] at h
    by_cases hp : p c = true
    · simp [hp] at h
    · simp only [Bool.not_eq_true] at hp
      simp [List.dropWhile_cons, hp]

theorem parseNum_natDigs (n : Nat) (rest : List Char)
    (hrest : rest.takeWhile Char.isDigit = []) :
    parseNum (natDigs n ++ rest) = some (n, rest) := by
  have hie : (natDigs n).isEmpty = false := by
    cases h : natDigs n with
    | nil => exact absurd h (natDigs_ne_nil n)
    | cons c t => rfl
  unfold parseNum
  rw [takeWhile_append_all _ _ (natDigs_all_digit n), hrest, List.append_nil,
    dropWhile_append_all _ _ (natDigs_all_digit n),
    dropWhile_eq_self_of_takeWhile_nil _ hrest]
  simp [hie, natVal_natDigs]

theorem skipWs_append_ws (pre t : List Char) (h : ∀ c ∈ pre, isWs c = true) :
    skipWs (pre ++ t) = skipWs t :=
  dropWhile_append_all pre t h

theorem skipWs_cons_not (c : Char) (t : List Char) (h : isWs c = false) :
    skipWs (c :: t) = c :: t := by
  simp [skipWs, List.dropWhile_cons, h]

theorem jIndent_ws (d : Nat) : ∀ c ∈ jIndent d, isWs c = true := by
  intro c hc
  rw [jIndent, List.mem_replicate] at hc
  rw [hc.2]
  rfl

theorem hexVal?_digitChar : ∀ k : Nat, k < 16 → hexVal? (Nat.digitChar k) = some k := by
  decide

theorem parseStrBody_nil_case (rest : List Char) :
    parseStrBody ('"' :: rest) = some ([], rest) := by
  rw [parseStrBody.eq_def]
  simp

theorem parseStrBody_unesc (e c' : Char) (t : List Char)
    (hu : unescape? e = some c') (hne : e ≠ 'u') :
    parseStrBody ('\\' :: e :: t) =
      (parseStrBody t).map (fun p => (c' :: p.1, p.2)) := by
  rw [parseStrBody.eq_def]
  simp [hne, hu]

theorem parseStrBody_hex (h3 h4 : Char) (a b : Nat) (t : List Char)
    (ha : hexVal? h3 = some a) (hb : hexVal? h4 = some b) :
    parseStrBody ('\\' :: 'u' :: '0' :: '0' :: h3 :: h4 :: t) =
      (parseStrBody t).map
        (fun p => (Char.ofNat (((0 * 16 + 0) * 16 + a) * 16 + b) :: p.1, p.2)) := by
  rw [parseStrBody.eq_def]
  simp [ha, hb, show hexVal? '0' = some 0 from rfl]

theorem parseStrBody_plain (c : Char) (t : List Char) (h1 : ¬ c = '"')
    (h2 : ¬ c = '\\') (h8 : ¬ c.toNat < 32) :
    parseStrBody (c :: t) = (parseStrBody t).map (fun p => (c :: p.1, p.2)) := by
  rw [parseStrBody.eq_def]
  simp [h1, h2, h8]

theorem parseStrBody_escape :
    ∀ (cs rest : List Char),
      parseStrBody (cs.flatMap escapeChar ++ ('"' :: rest)) = some (cs, rest) := by
  intro cs
  induction cs with
  | nil => intro rest; simp [parseStrBody_nil_case]
  | cons c cs ih =>
    intro rest
    by_cases h1 : c = '"'
    · subst h1
      have he : escapeChar '"' = ['\\', '"'] := rfl
      simp only [List.flatMap_cons, he, List.cons_append, List.append_assoc,
        List.nil_append]
      rw [parseStrBody_unesc '"' '"' _ rfl (by decide), ih]
      rfl
    by_cases h2 : c = '\\'
    · subst h2
      have he : escapeChar '\\' = ['\\', '\\'] := rfl
      simp only [List.flatMap_cons, he, List.cons_append, List.append_assoc,
        List.nil_append]
      rw [parseStrBody_unesc '\\' '\\' _ rfl (by decide), ih]
      rfl
    by_cases h3 : c = '\x08'
    · subst h3
      have he : escapeChar '\x08' = ['\\', 'b'] := rfl
      simp only [List.flatMap_cons, he, List.cons_append, List.append_assoc,
        List.nil_append]
      rw [parseStrBody_unesc 'b' '\x08' _ rfl (by decide), ih]
      rfl
    by_cases h4 : c = '\x0c'
    · subst h4
      have he : escapeChar '\x0c' = ['\\', 'f'] := rfl
      simp only [List.flatMap_cons, he, List.cons_append, List.append_assoc,
        List.nil_append]
      rw [parseStrBody_unesc 'f' '\x0c' _ rfl (by decide), ih]
      rfl
    by_cases h5 : c = '\n'
    · subst h5
      have he : escapeChar '\n' = ['\\', 'n'] := rfl
      simp only [List.flatMap_cons, he, List.cons_append, List.append_assoc,
        List.nil_append]
      rw [parseStrBody_unesc 'n' '\n' _ rfl (by decide), ih]
      rfl
    by_cases h6 : c = '\r'
    · subst h6
      have he : escapeChar '\r' = ['\\', 'r'] := rfl
      simp only [List.flatMap_cons, he, List.cons_append, List.append_assoc,
        List.nil_append]
      rw [parseStrBody_unesc 'r' '\r' _ rfl (by decide), ih]
      rfl
    by_cases h7 : c = '\t'
    · subst h7
      have he : escapeChar '\t' = ['\\', 't'] := rfl
      simp only [List.flatMap_cons, he, List.cons_append, List.append_assoc,
        List.nil_append]
      rw [parseStrBody_unesc 't' '\t' _ rfl (by decide), ih]
      rfl
    by_cases h8 : c.toNat < 32
    · have he : escapeChar c =
          ['\\', 'u', '0', '0', Nat.digitChar (c.toNat / 16),
            Nat.digitChar (c.toNat % 16)] := by
        simp [escapeChar, h1, h2, h3, h4, h5, h6, h7, h8]
      have hd1 := hexVal?_digitChar (c.toNat / 16) (by omega)
      have hd2 := hexVal?_digitChar (c.toNat % 16) (by omega)
      simp only [List.flatMap_cons, he, List.cons_append, List.append_assoc,
        List.nil_append]
      rw [parseStrBody_hex _ _ _ _ _ hd1 hd2, ih]
      have harith : ((0 * 16 + 0) * 16 + c.toNat / 16) * 16 + c.toNat % 16
          = c.toNat := by omega
      rw [harith, Char.ofNat_toNat]
      rfl
    · have he : escapeChar c = [c] := by
        simp [escapeChar, h1, h2, h3, h4, h5, h6, h7, h8]
      simp only [List.flatMap_cons, he, List.cons_append, List.append_assoc,
        List.nil_append]
      rw [parseStrBody_plain c _ h1 h2 h8, ih]
      rfl

theorem stringifyItems_shape (d' d : Nat) (x : Json) (xs : List Json)
    (rest : List Char) :
    stringifyItems d' x xs ++ ('\n' :: (jIndent d ++ (']' :: rest))) =
      jIndent d' ++ (stringifyVal d' x ++ itemsRest d' d xs rest) := by
  cases xs <;> simp [stringifyItems, itemsRest]

theorem stringifyFields_shape (d' d : Nat) (f : String × Json)
    (fs : List (String × Json)) (rest : List Char) :
    stringifyFields d' f fs ++ ('\n' :: (jIndent d ++ ('\x7d' :: rest))) =
      jIndent d' ++ (quoteStr f.1 ++ (':' :: ' ' ::
        (stringifyVal d' f.2 ++ fieldsRest d' d fs rest))) := by
  rcases f with ⟨k, v⟩
  cases fs <;> simp [stringifyFields, fieldsRest]

theorem stringify_head (d : Nat) (j : Json) :
    ∃ c cs, stringifyVal d j = c :: cs ∧ isWs c = false ∧ c ≠ ']' ∧
      c ≠ '\x7d' := by
  cases j with
  | num n =>
    obtain ⟨c, cs, hc⟩ := List.exists_cons_of_ne_nil (natDigs_ne_nil n)
    have hdig : c.isDigit = true := natDigs_all_digit n c (by rw [hc]; simp)
    obtain ⟨hw, _, _, _, h5, h6, _⟩ := isDigit_facts c hdig
    exact ⟨c, cs, by simp [stringifyVal, hc], hw, h5, h6⟩
  | str s =>
    exact ⟨'"', s.data.flatMap escapeChar ++ ['"'],
      by simp [stringifyVal, quoteStr], rfl, by decide, by decide⟩
  | arr xs =>
    cases xs with
    | nil => exact ⟨'[', [']'], by simp [stringifyVal], rfl, by decide, by decide⟩
    | cons x xs =>
      exact ⟨'[', '\n' :: (stringifyItems (d + 1) x xs ++
        ('\n' :: (jIndent d ++ [']']))), by simp [stringifyVal], rfl,
        by decide, by decide⟩
  | obj fs =>
    cases fs with
    | nil =>
      exact ⟨'\x7b', ['\x7d'], by simp [stringifyVal], rfl, by decide, by decide⟩
    | cons f fs =>
      exact ⟨'\x7b', '\n' :: (stringifyFields (d + 1) f fs ++
        ('\n' :: (jIndent d ++ ['\x7d']))), by simp [stringifyVal], rfl,
        by decide, by decide⟩

theorem jsize_pos (j : Json) : 1 ≤ jsize j := by
  cases j <;> simp [jsize]

theorem jsizeL_cons (x : Json) (xs : List Json) :
    jsizeL (x :: xs) = 1 + jsize x + jsizeL xs := by
  simp [jsizeL]

theorem jsizeF_cons (f : String × Json) (fs : List (String × Json)) :
    jsizeF (f :: fs) = 1 + jsize f.2 + jsizeF fs := by
  rcases f with ⟨k, v⟩
  simp [jsizeF]

theorem tw_digit_itemsRest (d' d : Nat) (xs : List Json) (rest : List Char) :
    (itemsRest d' d xs rest).takeWhile Char.isDigit = [] := by
  cases xs <;>
    simp [itemsRest, List.takeWhile_cons,
      show ('\n' : Char).isDigit = false from rfl,
      show (',' : Char).isDigit = false from rfl]

theorem tw_digit_fieldsRest (d' d : Nat) (fs : List (String × Json))
    (rest : List Char) :
    (fieldsRest d' d fs rest).takeWhile Char.isDigit = [] := by
  cases fs <;>
    simp [fieldsRest, List.takeWhile_cons,
      show ('\n' : Char).isDigit = false from rfl,
      show (',' : Char).isDigit = false from rfl]

theorem ws_nl_indent (d : Nat) : ∀ c ∈ '\n' :: jIndent d, isWs c = true := by
  intro c hc
  rcases List.mem_cons.mp hc with rfl | hc
  · rfl
  · exact jIndent_ws d c hc

theorem ws_space : ∀ c ∈ [' '], isWs c = true := by
  intro c hc
  simp at hc
  rw [hc]
  rfl

theorem parse_stringify :
    ∀ fuel : Nat,
      (∀ (j : Json) (d : Nat) (pre rest : List Char), jsize j < fuel →
        (∀ c ∈ pre, isWs c = true) → rest.takeWhile Char.isDigit = [] →
        parseValue fuel (pre ++ (stringifyVal d j ++ rest)) = some (j, rest)) ∧
      (∀ (x : Json) (xs : List Json) (d' d : Nat) (pre rest : List Char),
        jsizeL (x :: xs) < fuel → (∀ c ∈ pre, isWs c = true) →
        parseItems fuel (pre ++ (stringifyVal d' x ++ itemsRest d' d xs rest)) =
          some (x :: xs, rest)) ∧
      (∀ (f : String × Json) (fs : List (String × Json)) (d' d : Nat)
          (pre rest : List Char),
        jsizeF (f :: fs) < fuel → (∀ c ∈ pre, isWs c = true) →
        parseFields fuel (pre ++ (quoteStr f.1 ++ (':' :: ' ' ::
            (stringifyVal d' f.2 ++ fieldsRest d' d fs rest)))) =
          some (f :: fs, rest)) := by
  intro fuel
  induction fuel with
  | zero =>
    refine ⟨?_, ?_, ?_⟩
    · intro j d pre rest h _ _; omega
    · intro x xs d' d pre rest h _; omega
    · intro f fs d' d pre rest h _; omega
  | succ fuel ih =>
    obtain ⟨ihv, ihi, ihf⟩ := ih
    refine ⟨?_, ?_, ?_⟩
    · -- parseValue round trip
      intro j d pre rest hsz hpre hrest
      cases j with
      | num n =>
        obtain ⟨c0, cs0, hc0⟩ := List.exists_cons_of_ne_nil (natDigs_ne_nil n)
        have hdig : c0.isDigit = true := natDigs_all_digit n c0 (by rw [hc0]; simp)
        obtain ⟨hw, hq, hlb, hbb, _, _, _⟩ := isDigit_facts c0 hdig
        have hskip : skipWs (pre ++ (stringifyVal d (.num n) ++ rest)) =
            c0 :: (cs0 ++ rest) := by
          simp only [stringifyVal]
          rw [skipWs_append_ws pre _ hpre, hc0, List.cons_append,
            skipWs_cons_not _ _ hw]
        simp only [parseValue, hskip]
        simp only [if_neg hq, if_neg hlb, if_neg hbb, hdig, if_true]
        rw [← List.cons_append, ← hc0, parseNum_natDigs n rest hrest]
        rfl
      | str s =>
        have hskip : skipWs (pre ++ (stringifyVal d (.str s) ++ rest)) =
            '"' :: (s.data.flatMap escapeChar ++ ('"' :: rest)) := by
          simp only [stringifyVal, quoteStr]
          rw [skipWs_append_ws pre _ hpre, List.cons_append,
            skipWs_cons_not _ _ (by decide)]
          simp
        simp only [parseValue, hskip]
        rw [parseStrBody_escape]
        rfl
      | arr xs =>
        cases xs with
        | nil =>
          have hskip : skipWs (pre ++ (stringifyVal d (.arr []) ++ rest)) =
              '[' :: (']' :: rest) := by
            simp only [stringifyVal]
            rw [skipWs_append_ws pre _ hpre, List.cons_append, List.cons_append,
              List.nil_append, skipWs_cons_not _ _ (by decide)]
          simp only [parseValue, hskip]
          simp [skipWs_cons_not (']') rest rfl]
        | cons x xs =>
          have htext : stringifyVal d (.arr (x :: xs)) ++ rest =
              ('[' :: '\n' :: jIndent (d + 1)) ++
                (stringifyVal (d + 1) x ++ itemsRest (d + 1) d xs rest) := by
            simp only [stringifyVal]
            have h1 : ('[' :: '\n' ::
                (stringifyItems (d + 1) x xs ++ ('\n' :: (jIndent d ++ [']'])))) ++ rest
                = '[' :: '\n' ::
                  (stringifyItems (d + 1) x xs ++ ('\n' :: (jIndent d ++ (']' :: rest)))) := by
              simp
            rw [h1, stringifyItems_shape]
            simp
          have hskip1 : skipWs (pre ++ (stringifyVal d (.arr (x :: xs)) ++ rest)) =
              '[' :: ('\n' :: jIndent (d + 1) ++
                (stringifyVal (d + 1) x ++ itemsRest (d + 1) d xs rest)) := by
            rw [skipWs_append_ws pre _ hpre, htext, List.cons_append,
              skipWs_cons_not _ _ (by decide)]
          obtain ⟨hc, hcs, hx, hxw, hxr, hxb⟩ := stringify_head (d + 1) x
          have hskip2 : skipWs ('\n' :: jIndent (d + 1) ++
              (stringifyVal (d + 1) x ++ itemsRest (d + 1) d xs rest)) =
              stringifyVal (d + 1) x ++ itemsRest (d + 1) d xs rest := by
            rw [skipWs_append_ws _ _ (ws_nl_indent (d + 1)), hx, List.cons_append,
              skipWs_cons_not _ _ hxw, ← List.cons_append, ← hx]
          simp only [parseValue, hskip1]
          simp only [show ('[' : Char) ≠ '"' from by decide, if_neg, if_pos rfl,
            reduceIte]
          rw [hskip2]
          split
          · next rest' heq =>
            rw [hx, List.cons_append] at heq
            injection heq with h1 _
            exact absurd h1 hxr
          · next heq =>
            have hb : jsizeL (x :: xs) < fuel := by
              simp only [jsize] at hsz
              omega
            have := ihi x xs (d + 1) d [] rest hb (by simp)
            rw [List.nil_append] at this
            rw [this]
            rfl
      | obj fs =>
        cases fs with
        | nil =>
          have hskip : skipWs (pre ++ (stringifyVal d (.obj []) ++ rest)) =
              '\x7b' :: ('\x7d' :: rest) := by
            simp only [stringifyVal]
            rw [skipWs_append_ws pre _ hpre, List.cons_append, List.cons_append,
              List.nil_append, skipWs_cons_not _ _ (by decide)]
          simp only [parseValue, hskip]
          simp [skipWs_cons_not ('\x7d') rest rfl]
        | cons f fs =>
          have htext : stringifyVal d (.obj (f :: fs)) ++ rest =
              ('\x7b' :: '\n' :: jIndent (d + 1)) ++
                (quoteStr f.1 ++ (':' :: ' ' ::
                  (stringifyVal (d + 1) f.2 ++ fieldsRest (d + 1) d fs rest))) := by
            simp only [stringifyVal]
            have h1 : ('\x7b' :: '\n' ::
                (stringifyFields (d + 1) f fs ++ ('\n' :: (jIndent d ++ ['\x7d'])))) ++ rest
                = '\x7b' :: '\n' ::
                  (stringifyFields (d + 1) f fs ++
                    ('\n' :: (jIndent d ++ ('\x7d' :: rest)))) := by
              simp
            rw [h1, stringifyFields_shape]
            simp
          have hskip1 : skipWs (pre ++ (stringifyVal d (.obj (f :: fs)) ++ rest)) =
              '\x7b' :: ('\n' :: jIndent (d + 1) ++
                (quoteStr f.1 ++ (':' :: ' ' ::
                  (stringifyVal (d + 1) f.2 ++ fieldsRest (d + 1) d fs rest)))) := by
            rw [skipWs_append_ws pre _ hpre, htext, List.cons_append,
              skipWs_cons_not _ _ (by decide)]
          have hskip2 : skipWs ('\n' :: jIndent (d + 1) ++
              (quoteStr f.1 ++ (':' :: ' ' ::
                (stringifyVal (d + 1) f.2 ++ fieldsRest (d + 1) d fs rest)))) =
              quoteStr f.1 ++ (':' :: ' ' ::
                (stringifyVal (d + 1) f.2 ++ fieldsRest (d + 1) d fs rest)) := by
            rw [skipWs_append_ws _ _ (ws_nl_indent (d + 1))]
            simp only [quoteStr, List.cons_append]
            rw [skipWs_cons_not _ _ (by decide)]
          simp only [parseValue, hskip1]
          simp only [show ('\x7b' : Char) ≠ '"' from by decide,
            show ('\x7b' : Char) ≠ '[' from by decide, if_neg, if_pos rfl,
            reduceIte]
          rw [hskip2]
          split
          · next rest' heq =>
            simp only [quoteStr, List.cons_append] at heq
            injection heq with h1 _
            exact absurd h1 (by decide)
          · next heq =>
            have hb : jsizeF (f :: fs) < fuel := by
              simp only [jsize] at hsz
              omega
            have := ihf f fs (d + 1) d [] rest hb (by simp)
            rw [List.nil_append] at this
            rw [this]
            rfl
    · -- parseItems round trip
      intro x xs d' d pre rest hsz hpre
      have hbx : jsize x < fuel := by
        rw [jsizeL_cons] at hsz
        omega
      have hv := ihv x d' pre (itemsRest d' d xs rest) hbx hpre
        (tw_digit_itemsRest d' d xs rest)
      simp only [parseItems, hv]
      cases xs with
      | nil =>
        have hsk : skipWs (itemsRest d' d [] rest) = ']' :: rest := by
          simp only [itemsRest]
          rw [show ('\n' :: (jIndent d ++ (']' :: rest))) =
            ('\n' :: jIndent d) ++ (']' :: rest) from rfl,
            skipWs_append_ws _ _ (ws_nl_indent d), skipWs_cons_not _ _ (by decide)]
        rw [hsk]
        rfl
      | cons y ys =>
        have hsk : skipWs (itemsRest d' d (y :: ys) rest) =
            ',' :: ('\n' :: (stringifyItems d' y ys ++
              ('\n' :: (jIndent d ++ (']' :: rest))))) := by
          simp only [itemsRest]
          rw [skipWs_cons_not _ _ (by decide)]
        rw [hsk]
        have hre : '\n' :: (stringifyItems d' y ys ++
            ('\n' :: (jIndent d ++ (']' :: rest)))) =
            ('\n' :: jIndent d') ++
              (stringifyVal d' y ++ itemsRest d' d ys rest) := by
          rw [stringifyItems_shape d' d y ys rest]
          rfl
        have hby : jsizeL (y :: ys) < fuel := by
          rw [jsizeL_cons] at hsz
          have := jsize_pos x
          omega
        have hi := ihi y ys d' d ('\n' :: jIndent d') rest hby (ws_nl_indent d')
        rw [hre]
        show (match parseItems fuel (('\n' :: jIndent d') ++
            (stringifyVal d' y ++ itemsRest d' d ys rest)) with
          | none => none
          | some (vs, r3) => some (x :: vs, r3)) = some (x :: y :: ys, rest)
        rw [hi]
    · -- parseFields round trip
      intro f fs d' d pre rest hsz hpre
      have hbv : jsize f.2 < fuel := by
        rw [jsizeF_cons] at hsz
        omega
      have hv := ihv f.2 d' [' '] (fieldsRest d' d fs rest) hbv ws_space
        (tw_digit_fieldsRest d' d fs rest)
      rw [List.singleton_append] at hv
      have hskip : skipWs (pre ++ (quoteStr f.1 ++ (':' :: ' ' ::
          (stringifyVal d' f.2 ++ fieldsRest d' d fs rest)))) =
          '"' :: (f.1.data.flatMap escapeChar ++ ('"' :: (':' :: ' ' ::
            (stringifyVal d' f.2 ++ fieldsRest d' d fs rest)))) := by
        rw [skipWs_append_ws pre _ hpre]
        simp only [quoteStr, List.cons_append]
        rw [skipWs_cons_not _ _ (by decide)]
        simp
      simp only [parseFields, hskip]
      rw [parseStrBody_escape]
      show (match parseValue fuel (' ' ::
          (stringifyVal d' f.2 ++ fieldsRest d' d fs rest)) with
        | none => none
        | some (v, r3) =>
          match skipWs r3 with
          | ',' :: r4 =>
            match parseFields fuel r4 with
            | none => none
            | some (fs2, r5) => some ((String.mk f.1.data, v) :: fs2, r5)
          | '\x7d' :: r4 => some ([(String.mk f.1.data, v)], r4)
          | _ => none) = some (f :: fs, rest)
      rw [hv]
      cases fs with
      | nil =>
        have hsk : skipWs (fieldsRest d' d [] rest) = '\x7d' :: rest := by
          simp only [fieldsRest]
          rw [show ('\n' :: (jIndent d ++ ('\x7d' :: rest))) =
            ('\n' :: jIndent d) ++ ('\x7d' :: rest) from rfl,
            skipWs_append_ws _ _ (ws_nl_indent d), skipWs_cons_not _ _ (by decide)]
        show (match skipWs (fieldsRest d' d [] rest) with
          | ',' :: r4 =>
            match parseFields fuel r4 with
            | none => none
            | some (fs2, r5) => some ((String.mk f.1.data, f.2) :: fs2, r5)
          | '\x7d' :: r4 => some ([(String.mk f.1.data, f.2)], r4)
          | _ => none) = some ([f], rest)
        rw [hsk]
        rfl
      | cons g gs =>
        have hsk : skipWs (fieldsRest d' d (g :: gs) rest) =
            ',' :: ('\n' :: (stringifyFields d' g gs ++
              ('\n' :: (jIndent d ++ ('\x7d' :: rest))))) := by
          simp only [fieldsRest]
          rw [skipWs_cons_not _ _ (by decide)]
        have hre : '\n' :: (stringifyFields d' g gs ++
            ('\n' :: (jIndent d ++ ('\x7d' :: rest)))) =
            ('\n' :: jIndent d') ++ (quoteStr g.1 ++ (':' :: ' ' ::
              (stringifyVal d' g.2 ++ fieldsRest d' d gs rest))) := by
          rw [stringifyFields_shape d' d g gs rest]
          rfl
        have hbg : jsizeF (g :: gs) < fuel := by
          rw [jsizeF_cons] at hsz
          have := jsize_pos f.2
          omega
        have hg := ihf g gs d' d ('\n' :: jIndent d') rest hbg (ws_nl_indent d')
        show (match skipWs (fieldsRest d' d (g :: gs) rest) with
          | ',' :: r4 =>
            match parseFields fuel r4 with
            | none => none
            | some (fs2, r5) => some ((String.mk f.1.data, f.2) :: fs2, r5)
          | '\x7d' :: r4 => some ([(String.mk f.1.data, f.2)], r4)
          | _ => none) = some (f :: g :: gs, rest)
        rw [hsk, hre]
        show (match parseFields fuel (('\n' :: jIndent d') ++
            (quoteStr g.1 ++ (':' :: ' ' ::
              (stringifyVal d' g.2 ++ fieldsRest d' d gs rest)))) with
          | none => none
          | some (fs2, r5) => some ((String.mk f.1.data, f.2) :: fs2, r5)) =
          some (f :: g :: gs, rest)
        rw [hg]

theorem jsize_le_len : ∀ n : Nat,
    (∀ (d : Nat) (j : Json), jsize j ≤ n → jsize j ≤ (stringifyVal d j).length) ∧
    (∀ (d : Nat) (x : Json) (xs : List Json), jsizeL (x :: xs) ≤ n →
      jsizeL (x :: xs) ≤ (stringifyItems d x xs).length + 1) ∧
    (∀ (d : Nat) (f : String × Json) (fs : List (String × Json)),
      jsizeF (f :: fs) ≤ n →
      jsizeF (f :: fs) ≤ (stringifyFields d f fs).length + 1) := by
  intro n
  induction n with
  | zero =>
    refine ⟨?_, ?_, ?_⟩
    · intro d j h
      have := jsize_pos j
      omega
    · intro d x xs h
      rw [jsizeL_cons] at h
      omega
    · intro d f fs h
      rw [jsizeF_cons] at h
      omega
  | succ n ih =>
    obtain ⟨ia, ib, ic⟩ := ih
    refine ⟨?_, ?_, ?_⟩
    · intro d j h
      cases j with
      | num m =>
        have := List.length_pos.mpr (natDigs_ne_nil m)
        simp only [jsize, stringifyVal]
        omega
      | str s =>
        simp only [jsize, stringifyVal, quoteStr, List.length_cons]
        omega
      | arr xs =>
        cases xs with
        | nil => simp [jsize, jsizeL, stringifyVal]
        | cons x xs =>
          have hle : jsizeL (x :: xs) ≤ n := by
            simp only [jsize] at h
            omega
          have := ib (d + 1) x xs hle
          simp only [jsize, stringifyVal, List.length_cons, List.length_append,
            List.length_singleton]
          omega
      | obj fs =>
        cases fs with
        | nil => simp [jsize, jsizeF, stringifyVal]
        | cons f fs =>
          have hle : jsizeF (f :: fs) ≤ n := by
            simp only [jsize] at h
            omega
          have := ic (d + 1) f fs hle
          simp only [jsize, stringifyVal, List.length_cons, List.length_append,
            List.length_singleton]
          omega
    · intro d x xs h
      cases xs with
      | nil =>
        have hx : jsize x ≤ n := by
          rw [jsizeL_cons] at h
          simp only [jsizeL] at h
          omega
        have := ia d x hx
        rw [jsizeL_cons]
        simp only [jsizeL, stringifyItems, List.length_append]
        omega
      | cons y ys =>
        have hyy : 1 ≤ jsizeL (y :: ys) := by
          rw [jsizeL_cons]
          omega
        have hx : jsize x ≤ n := by
          rw [jsizeL_cons] at h
          omega
        have hy : jsizeL (y :: ys) ≤ n := by
          rw [jsizeL_cons] at h
          have := jsize_pos x
          omega
        have h1 := ia d x hx
        have h2 := ib d y ys hy
        rw [jsizeL_cons] at h ⊢
        simp only [stringifyItems, List.length_append, List.length_cons]
        omega
    · intro d f fs h
      cases fs with
      | nil =>
        have hx : jsize f.2 ≤ n := by
          rw [jsizeF_cons] at h
          simp only [jsizeF] at h
          omega
        have := ia d f.2 hx
        rw [jsizeF_cons]
        rcases f with ⟨k, v⟩
        simp only [jsizeF, stringifyFields, List.length_append,
          List.length_cons] at *
        omega
      | cons g gs =>
        have hgg : 1 ≤ jsizeF (g :: gs) := by
          rw [jsizeF_cons]
          omega
        have hx : jsize f.2 ≤ n := by
          rw [jsizeF_cons] at h
          omega
        have hg : jsizeF (g :: gs) ≤ n := by
          rw [jsizeF_cons] at h
          have := jsize_pos f.2
          omega
        have h1 := ia d f.2 hx
        have h2 := ic d g gs hg
        rw [jsizeF_cons] at h ⊢
        rcases f with ⟨k, v⟩
        simp only [stringifyFields, List.length_append, List.length_cons] at *
        omega

theorem parse_jsonText (j : Json) : jsonParse (jsonText j) = some j := by
  unfold jsonParse jsonText
  have hlen : jsize j < (stringifyVal 0 j).length + 1 := by
    have := (jsize_le_len (jsize j)).1 0 j (le_refl _)
    omega
  have h := (parse_stringify ((stringifyVal 0 j).length + 1)).1 j 0 [] []
    hlen (by simp) rfl
  rw [List.nil_append, List.append_nil] at h
  show (match parseValue ((stringifyVal 0 j).length + 1) (stringifyVal 0 j) with
    | some (j', rest) => if (skipWs rest).isEmpty then some j' else none
    | none => none) = some j
  rw [h]
  rfl

theorem decodeStrs_map (l : List String) :
    decodeStrs (l.map Json.str) = some l := by
  induction l with
  | nil => rfl
  | cons a l ih => simp [decodeStrs, ih]

theorem decodeStrList_encode (l : List String) :
    decodeStrList (encodeStrList l) = some l := by
  simp [decodeStrList, encodeStrList, decodeStrs_map]

theorem decodeSticky_encode (c : StickyCommand) :
    decodeSticky (encodeSticky c) = some c := rfl

theorem decodeStickys_map (l : List StickyCommand) :
    decodeStickys (l.map encodeSticky) = some l := by
  induction l with
  | nil => rfl
  | cons a l ih => simp [decodeStickys, decodeSticky_encode, ih]

theorem decodeStickyList_encode (l : List StickyCommand) :
    decodeStickyList (encodeStickyList l) = some l := by
  simp [decodeStickyList, encodeStickyList, decodeStickys_map]

/-- C8: for the generic JSON store in both of its instantiations —
`string[]` for command-history.json and `StickyCommand[]` for
sticky-commands.json — `save(X)` followed by `load()` returns `X`, for
every serializable value including the empty list: the pretty-printed
file parses back to the exact JSON value that was written, and reading
it at the stored type recovers `X`. -/
theorem persistence_round_trip :
    (∀ l : List String, commandHistoryStoreLoad (commandHistoryStoreSave l) = l) ∧
    (∀ l : List StickyCommand, stickyStoreLoad (stickyStoreSave l) = l) ∧
    commandHistoryStoreLoad (commandHistoryStoreSave []) = [] ∧
    stickyStoreLoad (stickyStoreSave []) = [] := by
  have h1 : ∀ l : List String,
      commandHistoryStoreLoad (commandHistoryStoreSave l) = l := by
    intro l
    simp [commandHistoryStoreLoad, commandHistoryStoreSave, parse_jsonText,
      decodeStrList_encode]
  have h2 : ∀ l : List StickyCommand,
      stickyStoreLoad (stickyStoreSave l) = l := by
    intro l
    simp [stickyStoreLoad, stickyStoreSave, parse_jsonText,
      decodeStickyList_encode]
  exact ⟨h1, h2, h1 [], h2 []⟩

end Origin
